import Mathlib

/-!
Verification of the debt-settlement minimizer `simplifyDebts` of this
repository (source file `src/utils/debtSimplifier.js`, exercised by the
HTTP route `GET /api/trips/:id/settle` in `src/api/index.js`).

Embedding conventions:
* JavaScript numbers are modelled as exact rationals (`ℚ`).
* The input object `balances` is modelled as an association list
  `List (Person × ℚ)` in `Object.entries` (insertion) order; object keys
  are unique, which appears as a `Nodup` hypothesis where it matters.
* `Array.prototype.sort` is a stable library sort; it is modelled by a
  stable insertion sort specialised to the two comparators the code uses
  (`(a, b) => a.amount - b.amount` and `(a, b) => b.amount - a.amount`).
* The `while` loop is modelled by a fuel-indexed recursion `settleLoop`;
  `simplifyDebts` supplies fuel `debtors.length + creditors.length`, and
  the fuel-independence theorems show this bound is never hit.
  `settleLoopOpt` is the same loop returning `none` on fuel exhaustion,
  making potential divergence observable.
* `Math.round x = ⌊x + 1/2⌋` (JavaScript rounds half toward +∞), so the
  statement `amount = Math.round(amount * 100) / 100` is `round2`.
-/

abbrev Person := String

/-- One payment instruction, as pushed by lines 35–40 of
`simplifyDebts`: `{from, to, amount, currency}`. -/
structure Settlement where
  «from» : Person
  «to» : Person
  amount : ℚ
  currency : String
deriving DecidableEq, Repr

/-- `Math.round(x * 100) / 100` — rounding to 2 decimals, line 33. -/
def round2 (x : ℚ) : ℚ := (⌊x * 100 + 1/2⌋ : ℤ) / 100

/-- Line 11: entries with `amount < -0.01` are pushed onto `debtors`. -/
def debtorsOf (balances : List (Person × ℚ)) : List (Person × ℚ) :=
  balances.filter (fun e => e.2 < -(1/100))

/-- Line 12: entries with `amount > 0.01` are pushed onto `creditors`. -/
def creditorsOf (balances : List (Person × ℚ)) : List (Person × ℚ) :=
  balances.filter (fun e => (1/100 : ℚ) < e.2)

/-- Stable insertion of `x` into a list already sorted ascending by
amount; `x` lands before the first element not below it. -/
def insertDebtor (x : Person × ℚ) : List (Person × ℚ) → List (Person × ℚ)
  | [] => [x]
  | y :: ys => if x.2 ≤ y.2 then x :: y :: ys else y :: insertDebtor x ys

/-- Line 16: `debtors.sort((a, b) => a.amount - b.amount)` — stable sort,
ascending by amount (most negative first). -/
def sortDebtors : List (Person × ℚ) → List (Person × ℚ)
  | [] => []
  | x :: xs => insertDebtor x (sortDebtors xs)

/-- Stable insertion of `x` into a list already sorted descending by
amount. -/
def insertCreditor (x : Person × ℚ) : List (Person × ℚ) → List (Person × ℚ)
  | [] => [x]
  | y :: ys => if y.2 ≤ x.2 then x :: y :: ys else y :: insertCreditor x ys

/-- Line 17: `creditors.sort((a, b) => b.amount - a.amount)` — stable
sort, descending by amount (largest credit first). -/
def sortCreditors : List (Person × ℚ) → List (Person × ℚ)
  | [] => []
  | x :: xs => insertCreditor x (sortCreditors xs)

/-- Lines 24–49: the matching `while` loop. The two cursors appear as
the two lists (the part of `debtors`/`creditors` not yet passed); the
in-place mutation of `debtor.amount` / `creditor.amount` appears as the
mutated head entry. Fuel bounds the number of iterations; fuel `0` with
both lists nonempty models a loop that is cut off. -/
def settleLoop : Nat → List (Person × ℚ) → List (Person × ℚ) → List Settlement
  | 0, _, _ => []
  | _ + 1, [], _ => []
  | _ + 1, _, [] => []
  | fuel + 1, (dp, da) :: dt, (cp, ca) :: ct =>
    let amount := round2 (min |da| ca)
    let da' := da + amount
    let ca' := ca - amount
    ⟨dp, cp, amount, "USD"⟩ ::
      settleLoop fuel (if |da'| < 1/100 then dt else (dp, da') :: dt)
        (if ca' < 1/100 then ct else (cp, ca') :: ct)

/-- `simplifyDebts` (lines 5–52): partition, sort both lists, run the
matching loop. The supplied fuel `debtors.length + creditors.length`
is shown sufficient by `settleLoop_fuel_eq`. -/
def simplifyDebts (balances : List (Person × ℚ)) : List Settlement :=
  let debtors := sortDebtors (debtorsOf balances)
  let creditors := sortCreditors (creditorsOf balances)
  settleLoop (debtors.length + creditors.length) debtors creditors

/-- The matching loop returning `none` on fuel exhaustion: `none` models
an execution that still needs more iterations, so a `some` result states
that the JavaScript `while` loop exits on its own. -/
def settleLoopOpt :
    Nat → List (Person × ℚ) → List (Person × ℚ) → Option (List Settlement)
  | _, [], _ => some []
  | _, _, [] => some []
  | 0, _ :: _, _ :: _ => none
  | fuel + 1, (dp, da) :: dt, (cp, ca) :: ct =>
    let amount := round2 (min |da| ca)
    let da' := da + amount
    let ca' := ca - amount
    (settleLoopOpt fuel (if |da'| < 1/100 then dt else (dp, da') :: dt)
        (if ca' < 1/100 then ct else (cp, ca') :: ct)).map
      (fun rest => ⟨dp, cp, amount, "USD"⟩ :: rest)

/-- `simplifyDebts` with the divergence-observing loop. -/
def simplifyDebtsOpt (balances : List (Person × ℚ)) : Option (List Settlement) :=
  let debtors := sortDebtors (debtorsOf balances)
  let creditors := sortCreditors (creditorsOf balances)
  settleLoopOpt (debtors.length + creditors.length) debtors creditors

/-- Simulated application of one settlement to a copy of the balances:
`copy[s.from] += s.amount; copy[s.to] -= s.amount`. -/
def applySettlement (f : Person → ℚ) (s : Settlement) : Person → ℚ :=
  fun p =>
    let v := if p = s.«from» then f p + s.amount else f p
    if p = s.«to» then v - s.amount else v

/-- Application of a settlement sequence, in emission order. -/
def applySettlements (l : List Settlement) (f : Person → ℚ) : Person → ℚ :=
  l.foldl applySettlement f

/-- The balances object read as a total function (absent keys read 0). -/
def balanceFn (balances : List (Person × ℚ)) : Person → ℚ :=
  fun p => (balances.lookup p).getD 0

/-- `x` is a whole number of cents. -/
def Cent (x : ℚ) : Prop := ∃ k : ℤ, x = (k : ℚ) / 100

/-- The heap state visible to `simplifyDebts`: the caller's `balances`
object and the three locally constructed values. Lines 10–13 build
`debtors`/`creditors` from fresh `{person, amount}` objects, so the loop
state carries `balances` as a separate component. -/
structure SimState where
  balances : List (Person × ℚ)
  debtors : List (Person × ℚ)
  creditors : List (Person × ℚ)
  settlements : List Settlement

/-- The matching loop as a transformer of the whole heap state: each
iteration writes only the `debtors`, `creditors` and `settlements`
components (lines 35–48 of the source), never `balances`. -/
def runLoop : Nat → SimState → SimState
  | 0, st => st
  | _ + 1, ⟨bal, [], cs, acc⟩ => ⟨bal, [], cs, acc⟩
  | _ + 1, ⟨bal, ds, [], acc⟩ => ⟨bal, ds, [], acc⟩
  | fuel + 1, ⟨bal, (dp, da) :: dt, (cp, ca) :: ct, acc⟩ =>
    let amount := round2 (min |da| ca)
    let da' := da + amount
    let ca' := ca - amount
    runLoop fuel
      ⟨bal, (if |da'| < 1/100 then dt else (dp, da') :: dt),
        (if ca' < 1/100 then ct else (cp, ca') :: ct),
        acc ++ [⟨dp, cp, amount, "USD"⟩]⟩

/-- Whole-state run of `simplifyDebts`: partition and sort from the
caller's `balances`, then loop. -/
def runSimplify (balances : List (Person × ℚ)) : SimState :=
  let debtors := sortDebtors (debtorsOf balances)
  let creditors := sortCreditors (creditorsOf balances)
  runLoop (debtors.length + creditors.length) ⟨balances, debtors, creditors, []⟩

/-! ### Arithmetic facts about `round2` and `Cent` -/

theorem round2_le_add (x : ℚ) : round2 x ≤ x + 1/200 := by
  have h : ((⌊x * 100 + 1/2⌋ : ℤ) : ℚ) ≤ x * 100 + 1/2 := Int.floor_le _
  unfold round2
  linarith

theorem sub_lt_round2 (x : ℚ) : x - 1/200 < round2 x := by
  have h : x * 100 + 1/2 < (⌊x * 100 + 1/2⌋ : ℤ) + 1 := Int.lt_floor_add_one _
  unfold round2
  push_cast at h ⊢
  linarith

theorem round2_mono {x y : ℚ} (h : x ≤ y) : round2 x ≤ round2 y := by
  have h' : (⌊x * 100 + 1/2⌋ : ℤ) ≤ ⌊y * 100 + 1/2⌋ :=
    Int.floor_le_floor (by linarith)
  have h'' : ((⌊x * 100 + 1/2⌋ : ℤ) : ℚ) ≤ ((⌊y * 100 + 1/2⌋ : ℤ) : ℚ) :=
    Int.cast_le.mpr h'
  unfold round2
  linarith

theorem round2_hundredth : round2 (1/100) = 1/100 := by
  norm_num [round2]

theorem round2_cent {x : ℚ} (hx : Cent x) : round2 x = x := by
  obtain ⟨k, rfl⟩ := hx
  have h : (k : ℚ) / 100 * 100 + 1/2 = (k : ℚ) + 1/2 := by ring
  rw [round2, h, Int.floor_int_add]
  norm_num

theorem Cent.add {x y : ℚ} (hx : Cent x) (hy : Cent y) : Cent (x + y) := by
  obtain ⟨k, rfl⟩ := hx
  obtain ⟨m, rfl⟩ := hy
  exact ⟨k + m, by push_cast; ring⟩

theorem Cent.sub {x y : ℚ} (hx : Cent x) (hy : Cent y) : Cent (x - y) := by
  obtain ⟨k, rfl⟩ := hx
  obtain ⟨m, rfl⟩ := hy
  exact ⟨k - m, by push_cast; ring⟩

theorem Cent.abs {x : ℚ} (hx : Cent x) : Cent |x| := by
  obtain ⟨k, rfl⟩ := hx
  exact ⟨|k|, by rw [abs_div]; push_cast; norm_num⟩

theorem Cent.min {x y : ℚ} (hx : Cent x) (hy : Cent y) : Cent (min x y) := by
  rcases le_total x y with h | h
  · rwa [min_eq_left h]
  · rwa [min_eq_right h]

theorem Cent.eq_zero_of_abs_lt {x : ℚ} (hx : Cent x) (h : |x| < 1/100) : x = 0 := by
  obtain ⟨k, rfl⟩ := hx
  have h100 : |(k : ℚ)| / 100 < 1/100 := by
    rw [abs_div] at h
    simpa using h
  have hk : |(k : ℚ)| < 1 := by linarith
  have hk' : |k| < 1 := by exact_mod_cast hk
  obtain ⟨h1, h2⟩ := abs_lt.mp hk'
  have : k = 0 := by omega
  simp [this]

/-! ### One-step facts about the matching loop -/

/-- Invariant carried by the not-yet-passed part of the debtors list:
every remaining entry owes at least one cent. -/
def DInv (ds : List (Person × ℚ)) : Prop := ∀ e ∈ ds, e.2 ≤ -(1/100)

/-- Invariant carried by the not-yet-passed part of the creditors list:
every remaining entry is owed at least one cent. -/
def CInv (cs : List (Person × ℚ)) : Prop := ∀ e ∈ cs, (1/100 : ℚ) ≤ e.2

/-- Everything one loop iteration guarantees, given the invariant on the
two current head amounts: the emitted amount is at least one cent, a
debtor kept in place still owes at least one cent, and at least one of
the two cursors advances. -/
theorem step_facts {da ca : ℚ} (hda : da ≤ -(1/100)) (hca : (1/100 : ℚ) ≤ ca) :
    (1/100 : ℚ) ≤ round2 (min |da| ca) ∧
    (¬ |da + round2 (min |da| ca)| < 1/100 →
      da + round2 (min |da| ca) ≤ -(1/100)) ∧
    (|da + round2 (min |da| ca)| < 1/100 ∨ ca - round2 (min |da| ca) < 1/100) := by
  have habs : |da| = -da := abs_of_nonpos (by linarith)
  have hmin : (1/100 : ℚ) ≤ min |da| ca := le_min (by rw [habs]; linarith) hca
  have h1 : (1/100 : ℚ) ≤ round2 (min |da| ca) := by
    calc (1/100 : ℚ) = round2 (1/100) := round2_hundredth.symm
    _ ≤ round2 (min |da| ca) := round2_mono hmin
  have hub : round2 (min |da| ca) ≤ min |da| ca + 1/200 := round2_le_add _
  have hlb : min |da| ca - 1/200 < round2 (min |da| ca) := sub_lt_round2 _
  have hminle : min |da| ca ≤ -da := by rw [← habs]; exact min_le_left _ _
  refine ⟨h1, ?_, ?_⟩
  · intro hkeep
    rcases le_or_lt 0 (da + round2 (min |da| ca)) with hge | hlt
    · exfalso
      apply hkeep
      rw [abs_of_nonneg hge]
      linarith
    · rw [abs_of_neg hlt] at hkeep
      push_neg at hkeep
      linarith
  · rcases le_total |da| ca with hc | hc
    · left
      have hmeq : min |da| ca = -da := by rw [min_eq_left hc, habs]
      rw [hmeq] at hub hlb ⊢
      rw [abs_lt]
      constructor <;> linarith
    · right
      have hmeq : min |da| ca = ca := min_eq_right hc
      rw [hmeq] at hub hlb ⊢
      linarith

/-! ### Unfolding equations for the loop -/

theorem settleLoop_nil_left (fuel : Nat) (cs : List (Person × ℚ)) :
    settleLoop fuel [] cs = [] := by
  cases fuel <;> simp [settleLoop]

theorem settleLoop_nil_right (fuel : Nat) (ds : List (Person × ℚ)) :
    settleLoop fuel ds [] = [] := by
  cases fuel <;> cases ds <;> simp [settleLoop]

theorem settleLoop_cons (fuel : Nat) (dp cp : Person) (da ca : ℚ)
    (dt ct : List (Person × ℚ)) :
    settleLoop (fuel + 1) ((dp, da) :: dt) ((cp, ca) :: ct) =
      ⟨dp, cp, round2 (min |da| ca), "USD"⟩ ::
        settleLoop fuel
          (if |da + round2 (min |da| ca)| < 1/100 then dt
            else (dp, da + round2 (min |da| ca)) :: dt)
          (if ca - round2 (min |da| ca) < 1/100 then ct
            else (cp, ca - round2 (min |da| ca)) :: ct) := rfl

/-! ### The main loop invariant induction -/

/-- Master induction over the loop: under the two list invariants the
number of emitted settlements is at most `ds.length + cs.length - 1`,
and every emitted settlement carries an amount of at least one cent, a
`from` person drawn from the debtors list and a `to` person drawn from
the creditors list. -/
theorem settleLoop_main : ∀ (fuel : Nat) (ds cs : List (Person × ℚ)),
    DInv ds → CInv cs →
    (settleLoop fuel ds cs).length ≤ ds.length + cs.length - 1 ∧
    ∀ s ∈ settleLoop fuel ds cs,
      (1/100 : ℚ) ≤ s.amount ∧ s.«from» ∈ ds.map Prod.fst ∧
        s.«to» ∈ cs.map Prod.fst := by
  intro fuel
  induction fuel with
  | zero =>
    intro ds cs _ _
    exact ⟨by simp [settleLoop], by simp [settleLoop]⟩
  | succ fuel IH =>
    intro ds cs hD hC
    rcases ds with _ | ⟨⟨dp, da⟩, dt⟩
    · simp [settleLoop_nil_left]
    rcases cs with _ | ⟨⟨cp, ca⟩, ct⟩
    · simp [settleLoop_nil_right]
    have hda : da ≤ -(1/100) := hD _ (List.mem_cons_self _ _)
    have hca : (1/100 : ℚ) ≤ ca := hC _ (List.mem_cons_self _ _)
    obtain ⟨hamt, hkeepd, hadv⟩ := step_facts hda hca
    rw [settleLoop_cons]
    set r := round2 (min |da| ca) with hr
    set ds' := (if |da + r| < 1/100 then dt else (dp, da + r) :: dt) with hds'
    set cs' := (if ca - r < 1/100 then ct else (cp, ca - r) :: ct) with hcs'
    have hD' : DInv ds' := by
      intro e he
      rw [hds'] at he
      by_cases h : |da + r| < 1/100
      · rw [if_pos h] at he
        exact hD _ (List.mem_cons_of_mem _ he)
      · rw [if_neg h] at he
        rcases List.mem_cons.mp he with rfl | he
        · exact hkeepd h
        · exact hD _ (List.mem_cons_of_mem _ he)
    have hC' : CInv cs' := by
      intro e he
      rw [hcs'] at he
      by_cases h : ca - r < 1/100
      · rw [if_pos h] at he
        exact hC _ (List.mem_cons_of_mem _ he)
      · rw [if_neg h] at he
        rcases List.mem_cons.mp he with rfl | he
        · push_neg at h
          exact h
        · exact hC _ (List.mem_cons_of_mem _ he)
    obtain ⟨IHlen, IHmem⟩ := IH ds' cs' hD' hC'
    have hlds : ds'.length = dt.length ∨ ds'.length = dt.length + 1 := by
      rw [hds']; split <;> simp
    have hlcs : cs'.length = ct.length ∨ cs'.length = ct.length + 1 := by
      rw [hcs']; split <;> simp
    have hone : ds'.length = dt.length ∨ cs'.length = ct.length := by
      rcases hadv with h | h
      · left; rw [hds', if_pos h]
      · right; rw [hcs', if_pos h]
    constructor
    · simp only [List.length_cons]
      omega
    · intro s hs
      rcases List.mem_cons.mp hs with rfl | hs
      · refine ⟨hamt, ?_, ?_⟩ <;> simp
      · obtain ⟨h1, h2, h3⟩ := IHmem s hs
        refine ⟨h1, ?_, ?_⟩
        · rw [hds'] at h2
          simp only [List.map_cons]
          by_cases h : |da + r| < 1/100
          · rw [if_pos h] at h2
            exact List.mem_cons_of_mem _ h2
          · rw [if_neg h] at h2
            simpa using h2
        · rw [hcs'] at h3
          simp only [List.map_cons]
          by_cases h : ca - r < 1/100
          · rw [if_pos h] at h3
            exact List.mem_cons_of_mem _ h3
          · rw [if_neg h] at h3
            simpa using h3

/-- The one-step update preserves both list invariants and loses at
least one list entry. -/
theorem step_inv (dp cp : Person) (da ca : ℚ) (dt ct : List (Person × ℚ))
    (hD : DInv ((dp, da) :: dt)) (hC : CInv ((cp, ca) :: ct)) :
    DInv (if |da + round2 (min |da| ca)| < 1/100 then dt
      else (dp, da + round2 (min |da| ca)) :: dt) ∧
    CInv (if ca - round2 (min |da| ca) < 1/100 then ct
      else (cp, ca - round2 (min |da| ca)) :: ct) ∧
    (if |da + round2 (min |da| ca)| < 1/100 then dt
      else (dp, da + round2 (min |da| ca)) :: dt).length +
      (if ca - round2 (min |da| ca) < 1/100 then ct
        else (cp, ca - round2 (min |da| ca)) :: ct).length + 1 ≤
      dt.length + ct.length + 2 := by
  have hda : da ≤ -(1/100) := hD _ (List.mem_cons_self _ _)
  have hca : (1/100 : ℚ) ≤ ca := hC _ (List.mem_cons_self _ _)
  obtain ⟨_, hkeepd, hadv⟩ := step_facts hda hca
  refine ⟨?_, ?_, ?_⟩
  · intro e he
    by_cases h : |da + round2 (min |da| ca)| < 1/100
    · rw [if_pos h] at he
      exact hD _ (List.mem_cons_of_mem _ he)
    · rw [if_neg h] at he
      rcases List.mem_cons.mp he with rfl | he
      · exact hkeepd h
      · exact hD _ (List.mem_cons_of_mem _ he)
  · intro e he
    by_cases h : ca - round2 (min |da| ca) < 1/100
    · rw [if_pos h] at he
      exact hC _ (List.mem_cons_of_mem _ he)
    · rw [if_neg h] at he
      rcases List.mem_cons.mp he with rfl | he
      · push_neg at h
        exact h
      · exact hC _ (List.mem_cons_of_mem _ he)
  · rcases hadv with h | h
    · rw [if_pos h]
      split <;> (try simp only [List.length_cons]) <;> omega
    · rw [if_pos h]
      split <;> (try simp only [List.length_cons]) <;> omega

/-- Any fuel at least `ds.length + cs.length` computes the same result:
the loop needs at most that many iterations. -/
theorem settleLoop_fuel_eq : ∀ (fuel : Nat) (ds cs : List (Person × ℚ)),
    DInv ds → CInv cs → ds.length + cs.length ≤ fuel →
    settleLoop fuel ds cs = settleLoop (ds.length + cs.length) ds cs := by
  intro fuel
  induction fuel using Nat.strong_induction_on with
  | _ fuel IH =>
    intro ds cs hD hC hle
    rcases ds with _ | ⟨⟨dp, da⟩, dt⟩
    · rw [settleLoop_nil_left, settleLoop_nil_left]
    rcases cs with _ | ⟨⟨cp, ca⟩, ct⟩
    · rw [settleLoop_nil_right, settleLoop_nil_right]
    simp only [List.length_cons] at hle ⊢
    obtain ⟨fuel, rfl⟩ : ∃ f, fuel = f + 1 := by
      rcases fuel with _ | f
      · omega
      · exact ⟨f, rfl⟩
    obtain ⟨hD', hC', hlen'⟩ := step_inv dp cp da ca dt ct hD hC
    rw [show dt.length + 1 + (ct.length + 1) = (dt.length + ct.length + 1) + 1 by omega]
    rw [settleLoop_cons, settleLoop_cons]
    congr 1
    have e1 := IH fuel (by omega) _ _ hD' hC' (by omega)
    have e2 := IH (dt.length + ct.length + 1) (by omega) _ _ hD' hC' (by omega)
    rw [e1, e2]

/-- With fuel at least `ds.length + cs.length`, the divergence-observing
loop completes: the `while` loop exits within that many iterations. -/
theorem settleLoopOpt_eq : ∀ (fuel : Nat) (ds cs : List (Person × ℚ)),
    DInv ds → CInv cs → ds.length + cs.length ≤ fuel →
    settleLoopOpt fuel ds cs = some (settleLoop fuel ds cs) := by
  intro fuel
  induction fuel with
  | zero =>
    intro ds cs _ _ hle
    rcases ds with _ | ⟨d, dt⟩
    · simp [settleLoopOpt, settleLoop]
    · simp at hle
  | succ fuel IH =>
    intro ds cs hD hC hle
    rcases ds with _ | ⟨⟨dp, da⟩, dt⟩
    · simp [settleLoopOpt, settleLoop_nil_left]
    rcases cs with _ | ⟨⟨cp, ca⟩, ct⟩
    · simp [settleLoopOpt, settleLoop_nil_right]
    obtain ⟨hD', hC', hlen'⟩ := step_inv dp cp da ca dt ct hD hC
    simp only [List.length_cons] at hle
    rw [settleLoop_cons]
    show (settleLoopOpt fuel _ _).map _ = _
    rw [IH _ _ hD' hC' (by omega)]
    rfl

/-! ### The whole-state (heap) run -/

theorem runLoop_balances : ∀ (fuel : Nat) (bal ds cs : List (Person × ℚ))
    (acc : List Settlement), (runLoop fuel ⟨bal, ds, cs, acc⟩).balances = bal := by
  intro fuel
  induction fuel with
  | zero => intros; rfl
  | succ fuel IH =>
    intro bal ds cs acc
    rcases ds with _ | ⟨⟨dp, da⟩, dt⟩
    · simp [runLoop]
    rcases cs with _ | ⟨⟨cp, ca⟩, ct⟩
    · simp [runLoop]
    simp only [runLoop]
    exact IH _ _ _ _

theorem runLoop_settlements : ∀ (fuel : Nat) (bal ds cs : List (Person × ℚ))
    (acc : List Settlement),
    (runLoop fuel ⟨bal, ds, cs, acc⟩).settlements = acc ++ settleLoop fuel ds cs := by
  intro fuel
  induction fuel with
  | zero => intros; simp [runLoop, settleLoop]
  | succ fuel IH =>
    intro bal ds cs acc
    rcases ds with _ | ⟨⟨dp, da⟩, dt⟩
    · simp [runLoop, settleLoop_nil_left]
    rcases cs with _ | ⟨⟨cp, ca⟩, ct⟩
    · simp [runLoop, settleLoop_nil_right]
    rw [settleLoop_cons]
    simp only [runLoop]
    rw [IH]
    simp

/-! ### Permutation facts about the two sorts -/

theorem insertDebtor_perm (x : Person × ℚ) (l : List (Person × ℚ)) :
    (insertDebtor x l).Perm (x :: l) := by
  induction l with
  | nil => simp [insertDebtor]
  | cons y ys IH =>
    rw [insertDebtor]
    split
    · exact List.Perm.refl _
    · exact (IH.cons y).trans (List.Perm.swap x y ys)

theorem sortDebtors_perm (l : List (Person × ℚ)) : (sortDebtors l).Perm l := by
  induction l with
  | nil => simp [sortDebtors]
  | cons x xs IH => exact (insertDebtor_perm x (sortDebtors xs)).trans (IH.cons x)

theorem insertCreditor_perm (x : Person × ℚ) (l : List (Person × ℚ)) :
    (insertCreditor x l).Perm (x :: l) := by
  induction l with
  | nil => simp [insertCreditor]
  | cons y ys IH =>
    rw [insertCreditor]
    split
    · exact List.Perm.refl _
    · exact (IH.cons y).trans (List.Perm.swap x y ys)

theorem sortCreditors_perm (l : List (Person × ℚ)) : (sortCreditors l).Perm l := by
  induction l with
  | nil => simp [sortCreditors]
  | cons x xs IH => exact (insertCreditor_perm x (sortCreditors xs)).trans (IH.cons x)

/-! ### The partition step -/

theorem mem_debtorsOf {e : Person × ℚ} {b : List (Person × ℚ)} :
    e ∈ debtorsOf b ↔ e ∈ b ∧ e.2 < -(1/100) := by
  simp [debtorsOf, List.mem_filter]

theorem mem_creditorsOf {e : Person × ℚ} {b : List (Person × ℚ)} :
    e ∈ creditorsOf b ↔ e ∈ b ∧ (1/100 : ℚ) < e.2 := by
  simp [creditorsOf, List.mem_filter]

theorem debtorsOf_cons (e : Person × ℚ) (t : List (Person × ℚ)) :
    debtorsOf (e :: t) =
      if e.2 < -(1/100) then e :: debtorsOf t else debtorsOf t := by
  by_cases h : e.2 < -(1/100) <;> simp [debtorsOf, List.filter_cons, h]

theorem creditorsOf_cons (e : Person × ℚ) (t : List (Person × ℚ)) :
    creditorsOf (e :: t) =
      if (1/100 : ℚ) < e.2 then e :: creditorsOf t else creditorsOf t := by
  by_cases h : (1/100 : ℚ) < e.2 <;> simp [creditorsOf, List.filter_cons, h]

/-- The two sorted working lists of `simplifyDebts` satisfy the loop
invariants. -/
theorem sorted_inv (b : List (Person × ℚ)) :
    DInv (sortDebtors (debtorsOf b)) ∧ CInv (sortCreditors (creditorsOf b)) := by
  constructor
  · intro e he
    have he' : e ∈ debtorsOf b := ((sortDebtors_perm _).mem_iff).mp he
    have := (mem_debtorsOf.mp he').2
    linarith
  · intro e he
    have he' : e ∈ creditorsOf b := ((sortCreditors_perm _).mem_iff).mp he
    have := (mem_creditorsOf.mp he').2
    linarith

/-! ### Association-list facts -/

theorem keys_unique {b : List (Person × ℚ)} (h : (b.map Prod.fst).Nodup)
    {p : Person} {a a' : ℚ} (h1 : (p, a) ∈ b) (h2 : (p, a') ∈ b) : a = a' := by
  induction b with
  | nil => simp at h1
  | cons e t IH =>
    rw [List.map_cons, List.nodup_cons] at h
    rcases List.mem_cons.mp h1 with he1 | h1'
    · rcases List.mem_cons.mp h2 with he2 | h2'
      · have h3 : (p, a) = (p, a') := he1.trans he2.symm
        injection h3 with h4 h5
      · exfalso
        apply h.1
        rw [← he1]
        exact List.mem_map.mpr ⟨(p, a'), h2', rfl⟩
    · rcases List.mem_cons.mp h2 with he2 | h2'
      · exfalso
        apply h.1
        rw [← he2]
        exact List.mem_map.mpr ⟨(p, a), h1', rfl⟩
      · exact IH h.2 h1' h2'

theorem balanceFn_eq {b : List (Person × ℚ)} {p : Person} {a : ℚ}
    (h : (b.map Prod.fst).Nodup) (he : (p, a) ∈ b) : balanceFn b p = a := by
  induction b with
  | nil => simp at he
  | cons x t IH =>
    rw [List.map_cons, List.nodup_cons] at h
    obtain ⟨q, c⟩ := x
    rcases List.mem_cons.mp he with he1 | he'
    · injection he1 with h1 h2
      subst h1
      subst h2
      simp [balanceFn, List.lookup]
    · have hne : p ≠ q := by
        intro hpe
        apply h.1
        subst hpe
        exact List.mem_map.mpr ⟨(p, a), he', rfl⟩
      have hbeq : (p == q) = false := beq_eq_false_iff_ne.mpr hne
      have := IH h.2 he'
      simpa [balanceFn, List.lookup, hbeq] using this

/-! ### Sum bookkeeping -/

theorem sum_le_zero {l : List ℚ} (h : ∀ x ∈ l, x ≤ 0) : l.sum ≤ 0 := by
  induction l with
  | nil => simp
  | cons x t IH =>
    rw [List.sum_cons]
    have h1 := h x (List.mem_cons_self _ _)
    have h2 := IH (fun y hy => h y (List.mem_cons_of_mem _ hy))
    linarith

theorem cs_nil_of_sum {cs : List (Person × ℚ)} (h : CInv cs)
    (hsum : (cs.map Prod.snd).sum = 0) : cs = [] := by
  cases cs with
  | nil => rfl
  | cons e t =>
    exfalso
    have h1 : (1/100 : ℚ) ≤ e.2 := h _ (List.mem_cons_self _ _)
    have h2 : (0 : ℚ) ≤ (t.map Prod.snd).sum := by
      apply List.sum_nonneg
      intro x hx
      obtain ⟨e', he', rfl⟩ := List.mem_map.mp hx
      have := h e' (List.mem_cons_of_mem _ he')
      linarith
    rw [List.map_cons, List.sum_cons] at hsum
    linarith

theorem ds_nil_of_sum {ds : List (Person × ℚ)} (h : DInv ds)
    (hsum : (ds.map Prod.snd).sum = 0) : ds = [] := by
  cases ds with
  | nil => rfl
  | cons e t =>
    exfalso
    have h1 : e.2 ≤ -(1/100) := h _ (List.mem_cons_self _ _)
    have h2 : (t.map Prod.snd).sum ≤ 0 := by
      apply sum_le_zero
      intro x hx
      obtain ⟨e', he', rfl⟩ := List.mem_map.mp hx
      have := h e' (List.mem_cons_of_mem _ he')
      linarith
    rw [List.map_cons, List.sum_cons] at hsum
    linarith

/-- Splitting the total balance sum over the partition: entries caught
by neither filter must be zero for the two filtered sums to carry the
whole sum. -/
theorem sum_split (b : List (Person × ℚ))
    (h0 : ∀ e ∈ b, ¬ e.2 < -(1/100) → ¬ (1/100 : ℚ) < e.2 → e.2 = 0) :
    ((debtorsOf b).map Prod.snd).sum + ((creditorsOf b).map Prod.snd).sum
      = (b.map Prod.snd).sum := by
  induction b with
  | nil => simp [debtorsOf, creditorsOf]
  | cons e t IH =>
    have ht : ∀ e' ∈ t, ¬ e'.2 < -(1/100) → ¬ (1/100 : ℚ) < e'.2 → e'.2 = 0 :=
      fun e' he' => h0 e' (List.mem_cons_of_mem _ he')
    have IH' := IH ht
    rw [debtorsOf_cons, creditorsOf_cons, List.map_cons, List.sum_cons]
    by_cases h1 : e.2 < -(1/100)
    · have h2 : ¬ (1/100 : ℚ) < e.2 := by linarith
      rw [if_pos h1, if_neg h2, List.map_cons, List.sum_cons]
      linarith
    · by_cases h2 : (1/100 : ℚ) < e.2
      · rw [if_neg h1, if_pos h2, List.map_cons, List.sum_cons]
        linarith
      · have h3 : e.2 = 0 := h0 e (List.mem_cons_self _ _) h1 h2
        rw [if_neg h1, if_neg h2, h3]
        linarith

theorem applySettlements_cons (s : Settlement) (l : List Settlement) (f : Person → ℚ) :
    applySettlements (s :: l) f = applySettlements l (applySettlement f s) := rfl

/-- Cent-exact full settlement: when every remaining amount is a whole
number of cents, the remaining amounts sum to zero, keys are distinct
and `f` agrees with the list entries, applying the emitted settlements
to `f` zeroes every listed person and leaves everyone else untouched. -/
theorem settleLoop_settles :
    ∀ (fuel : Nat) (ds cs : List (Person × ℚ)) (f : Person → ℚ),
    (∀ e ∈ ds, e.2 ≤ -(1/100) ∧ Cent e.2) →
    (∀ e ∈ cs, (1/100 : ℚ) ≤ e.2 ∧ Cent e.2) →
    (ds.map Prod.fst ++ cs.map Prod.fst).Nodup →
    (ds.map Prod.snd).sum + (cs.map Prod.snd).sum = 0 →
    ds.length + cs.length ≤ fuel →
    (∀ e ∈ ds, f e.1 = e.2) →
    (∀ e ∈ cs, f e.1 = e.2) →
    ∀ p, applySettlements (settleLoop fuel ds cs) f p =
      if p ∈ ds.map Prod.fst ∨ p ∈ cs.map Prod.fst then 0 else f p := by
  intro fuel
  induction fuel with
  | zero =>
    intro ds cs f _ _ _ _ hle _ _ p
    have hds : ds = [] := List.length_eq_zero.mp (by omega)
    have hcs : cs = [] := List.length_eq_zero.mp (by omega)
    subst hds
    subst hcs
    simp [settleLoop, applySettlements]
  | succ fuel IH =>
    intro ds cs f hds hcs hnd hsum hle hfd hfc
    rcases ds with _ | ⟨⟨dp, da⟩, dt⟩
    · have hcs0 : cs = [] :=
        cs_nil_of_sum (fun e he => (hcs e he).1) (by simpa using hsum)
      subst hcs0
      intro p
      simp [settleLoop_nil_left, applySettlements]
    rcases cs with _ | ⟨⟨cp, ca⟩, ct⟩
    · have hds0 : ((dp, da) :: dt : List (Person × ℚ)) = [] :=
        ds_nil_of_sum (fun e he => (hds e he).1) (by simpa using hsum)
      simp at hds0
    have hda := hds _ (List.mem_cons_self _ _)
    have hca := hcs _ (List.mem_cons_self _ _)
    have hminC : Cent (min |da| ca) := (Cent.abs hda.2).min hca.2
    have hrC : Cent (round2 (min |da| ca)) := by
      rw [round2_cent hminC]; exact hminC
    have hdaC' : Cent (da + round2 (min |da| ca)) := hda.2.add hrC
    have hcaC' : Cent (ca - round2 (min |da| ca)) := hca.2.sub hrC
    have hD : DInv ((dp, da) :: dt) := fun e he => (hds e he).1
    have hC : CInv ((cp, ca) :: ct) := fun e he => (hcs e he).1
    obtain ⟨hD', hC', hlen'⟩ := step_inv dp cp da ca dt ct hD hC
    have hd0 : |da + round2 (min |da| ca)| < 1/100 → da + round2 (min |da| ca) = 0 :=
      fun h => Cent.eq_zero_of_abs_lt hdaC' h
    have hclb : -(1/200 : ℚ) ≤ ca - round2 (min |da| ca) := by
      have h1 := round2_le_add (min |da| ca)
      have h2 : min |da| ca ≤ ca := min_le_right _ _
      linarith
    have hc0 : ca - round2 (min |da| ca) < 1/100 → ca - round2 (min |da| ca) = 0 := by
      intro h
      exact Cent.eq_zero_of_abs_lt hcaC' (abs_lt.mpr ⟨by linarith, h⟩)
    have hdisj := List.disjoint_of_nodup_append hnd
    have hndl : (((dp, da) :: dt).map Prod.fst).Nodup := hnd.of_append_left
    have hndr : (((cp, ca) :: ct).map Prod.fst).Nodup := hnd.of_append_right
    have hdp_dt : dp ∉ dt.map Prod.fst := by
      rw [List.map_cons, List.nodup_cons] at hndl
      exact hndl.1
    have hcp_ct : cp ∉ ct.map Prod.fst := by
      rw [List.map_cons, List.nodup_cons] at hndr
      exact hndr.1
    have hdpcp : dp ≠ cp := by
      intro h
      exact hdisj (a := dp) (by simp) (by simp [h])
    have hfdp : f dp = da := hfd _ (List.mem_cons_self _ _)
    have hfcp : f cp = ca := hfc _ (List.mem_cons_self _ _)
    have hf'dp : applySettlement f ⟨dp, cp, round2 (min |da| ca), "USD"⟩ dp
        = da + round2 (min |da| ca) := by
      simp [applySettlement, hdpcp, hfdp]
    have hf'cp : applySettlement f ⟨dp, cp, round2 (min |da| ca), "USD"⟩ cp
        = ca - round2 (min |da| ca) := by
      simp [applySettlement, Ne.symm hdpcp, hfcp]
    have hf'other : ∀ q, q ≠ dp → q ≠ cp →
        applySettlement f ⟨dp, cp, round2 (min |da| ca), "USD"⟩ q = f q := by
      intro q h1 h2
      simp [applySettlement, h1, h2]
    have hsubd : ((if |da + round2 (min |da| ca)| < 1/100 then dt
        else (dp, da + round2 (min |da| ca)) :: dt).map Prod.fst).Sublist
        (((dp, da) :: dt).map Prod.fst) := by
      by_cases h : |da + round2 (min |da| ca)| < 1/100
      · rw [if_pos h]
        simp only [List.map_cons]
        exact List.sublist_cons_self _ _
      · rw [if_neg h]
        simp only [List.map_cons]
        exact List.Sublist.refl _
    have hsubc : ((if ca - round2 (min |da| ca) < 1/100 then ct
        else (cp, ca - round2 (min |da| ca)) :: ct).map Prod.fst).Sublist
        (((cp, ca) :: ct).map Prod.fst) := by
      by_cases h : ca - round2 (min |da| ca) < 1/100
      · rw [if_pos h]
        simp only [List.map_cons]
        exact List.sublist_cons_self _ _
      · rw [if_neg h]
        simp only [List.map_cons]
        exact List.Sublist.refl _
    have hnd' := (hsubd.append hsubc).nodup hnd
    have hds' : ∀ e ∈ (if |da + round2 (min |da| ca)| < 1/100 then dt
        else (dp, da + round2 (min |da| ca)) :: dt), e.2 ≤ -(1/100) ∧ Cent e.2 := by
      intro e he
      refine ⟨hD' e he, ?_⟩
      by_cases h : |da + round2 (min |da| ca)| < 1/100
      · rw [if_pos h] at he
        exact (hds _ (List.mem_cons_of_mem _ he)).2
      · rw [if_neg h] at he
        rcases List.mem_cons.mp he with rfl | he
        · exact hdaC'
        · exact (hds _ (List.mem_cons_of_mem _ he)).2
    have hcs' : ∀ e ∈ (if ca - round2 (min |da| ca) < 1/100 then ct
        else (cp, ca - round2 (min |da| ca)) :: ct), (1/100 : ℚ) ≤ e.2 ∧ Cent e.2 := by
      intro e he
      refine ⟨hC' e he, ?_⟩
      by_cases h : ca - round2 (min |da| ca) < 1/100
      · rw [if_pos h] at he
        exact (hcs _ (List.mem_cons_of_mem _ he)).2
      · rw [if_neg h] at he
        rcases List.mem_cons.mp he with rfl | he
        · exact hcaC'
        · exact (hcs _ (List.mem_cons_of_mem _ he)).2
    have hsum' : (((if |da + round2 (min |da| ca)| < 1/100 then dt
        else (dp, da + round2 (min |da| ca)) :: dt).map Prod.snd).sum) +
        (((if ca - round2 (min |da| ca) < 1/100 then ct
        else (cp, ca - round2 (min |da| ca)) :: ct).map Prod.snd).sum) = 0 := by
      simp only [List.map_cons, List.sum_cons] at hsum
      by_cases h1 : |da + round2 (min |da| ca)| < 1/100 <;>
        by_cases h2 : ca - round2 (min |da| ca) < 1/100
      · rw [if_pos h1, if_pos h2]
        have e1 := hd0 h1
        have e2 := hc0 h2
        linarith
      · rw [if_pos h1, if_neg h2]
        have e1 := hd0 h1
        simp only [List.map_cons, List.sum_cons]
        linarith
      · rw [if_neg h1, if_pos h2]
        have e2 := hc0 h2
        simp only [List.map_cons, List.sum_cons]
        linarith
      · rw [if_neg h1, if_neg h2]
        simp only [List.map_cons, List.sum_cons]
        linarith
    have hle' : (if |da + round2 (min |da| ca)| < 1/100 then dt
        else (dp, da + round2 (min |da| ca)) :: dt).length +
        (if ca - round2 (min |da| ca) < 1/100 then ct
        else (cp, ca - round2 (min |da| ca)) :: ct).length ≤ fuel := by
      simp only [List.length_cons] at hle
      omega
    have hfds' : ∀ e ∈ (if |da + round2 (min |da| ca)| < 1/100 then dt
        else (dp, da + round2 (min |da| ca)) :: dt),
        applySettlement f ⟨dp, cp, round2 (min |da| ca), "USD"⟩ e.1 = e.2 := by
      have htail : ∀ e ∈ dt,
          applySettlement f ⟨dp, cp, round2 (min |da| ca), "USD"⟩ e.1 = e.2 := by
        intro e he
        have h1 : e.1 ≠ dp := by
          intro hh
          apply hdp_dt
          rw [← hh]
          exact List.mem_map.mpr ⟨e, he, rfl⟩
        have h2 : e.1 ≠ cp := by
          intro hh
          apply hdisj (a := e.1)
          · exact List.mem_map.mpr ⟨e, List.mem_cons_of_mem _ he, rfl⟩
          · rw [hh]; simp
        rw [hf'other _ h1 h2]
        exact hfd _ (List.mem_cons_of_mem _ he)
      intro e he
      by_cases h : |da + round2 (min |da| ca)| < 1/100
      · rw [if_pos h] at he
        exact htail e he
      · rw [if_neg h] at he
        rcases List.mem_cons.mp he with rfl | he
        · exact hf'dp
        · exact htail e he
    have hfcs' : ∀ e ∈ (if ca - round2 (min |da| ca) < 1/100 then ct
        else (cp, ca - round2 (min |da| ca)) :: ct),
        applySettlement f ⟨dp, cp, round2 (min |da| ca), "USD"⟩ e.1 = e.2 := by
      have htail : ∀ e ∈ ct,
          applySettlement f ⟨dp, cp, round2 (min |da| ca), "USD"⟩ e.1 = e.2 := by
        intro e he
        have h2 : e.1 ≠ cp := by
          intro hh
          apply hcp_ct
          rw [← hh]
          exact List.mem_map.mpr ⟨e, he, rfl⟩
        have h1 : e.1 ≠ dp := by
          intro hh
          apply hdisj (a := e.1)
          · rw [hh]; simp
          · exact List.mem_map.mpr ⟨e, List.mem_cons_of_mem _ he, rfl⟩
        rw [hf'other _ h1 h2]
        exact hfc _ (List.mem_cons_of_mem _ he)
      intro e he
      by_cases h : ca - round2 (min |da| ca) < 1/100
      · rw [if_pos h] at he
        exact htail e he
      · rw [if_neg h] at he
        rcases List.mem_cons.mp he with rfl | he
        · exact hf'cp
        · exact htail e he
    have hdt_sub : dt.map Prod.fst ⊆ (if |da + round2 (min |da| ca)| < 1/100 then dt
        else (dp, da + round2 (min |da| ca)) :: dt).map Prod.fst := by
      intro q hq
      by_cases h : |da + round2 (min |da| ca)| < 1/100
      · rw [if_pos h]; exact hq
      · rw [if_neg h]
        simp only [List.map_cons]
        exact List.mem_cons_of_mem _ hq
    have hct_sub : ct.map Prod.fst ⊆ (if ca - round2 (min |da| ca) < 1/100 then ct
        else (cp, ca - round2 (min |da| ca)) :: ct).map Prod.fst := by
      intro q hq
      by_cases h : ca - round2 (min |da| ca) < 1/100
      · rw [if_pos h]; exact hq
      · rw [if_neg h]
        simp only [List.map_cons]
        exact List.mem_cons_of_mem _ hq
    intro p
    rw [settleLoop_cons, applySettlements_cons]
    have key := IH
      (if |da + round2 (min |da| ca)| < 1/100 then dt
        else (dp, da + round2 (min |da| ca)) :: dt)
      (if ca - round2 (min |da| ca) < 1/100 then ct
        else (cp, ca - round2 (min |da| ca)) :: ct)
      (applySettlement f ⟨dp, cp, round2 (min |da| ca), "USD"⟩)
      hds' hcs' hnd' hsum' hle' hfds' hfcs' p
    rw [key]
    by_cases hp : p ∈ (if |da + round2 (min |da| ca)| < 1/100 then dt
        else (dp, da + round2 (min |da| ca)) :: dt).map Prod.fst ∨
        p ∈ (if ca - round2 (min |da| ca) < 1/100 then ct
        else (cp, ca - round2 (min |da| ca)) :: ct).map Prod.fst
    · rw [if_pos hp,
        if_pos (hp.imp (fun h => hsubd.subset h) (fun h => hsubc.subset h))]
    · rw [if_neg hp]
      push_neg at hp
      by_cases hporig : p ∈ ((dp, da) :: dt).map Prod.fst ∨
          p ∈ ((cp, ca) :: ct).map Prod.fst
      · rw [if_pos hporig]
        rcases hporig with hporig | hporig
        · simp only [List.map_cons, List.mem_cons] at hporig
          rcases hporig with rfl | hporig
          · by_cases h : |da + round2 (min |da| ca)| < 1/100
            · rw [hf'dp]
              exact hd0 h
            · exfalso
              apply hp.1
              rw [if_neg h]
              simp
          · exact absurd (hdt_sub hporig) hp.1
        · simp only [List.map_cons, List.mem_cons] at hporig
          rcases hporig with rfl | hporig
          · by_cases h : ca - round2 (min |da| ca) < 1/100
            · rw [hf'cp]
              exact hc0 h
            · exfalso
              apply hp.2
              rw [if_neg h]
              simp
          · exact absurd (hct_sub hporig) hp.2
      · rw [if_neg hporig]
        push_neg at hporig
        obtain ⟨hporig1, hporig2⟩ := hporig
        simp only [List.map_cons, List.mem_cons] at hporig1 hporig2
        push_neg at hporig1 hporig2
        exact hf'other p hporig1.1 hporig2.1

/-! ### From the loop to `simplifyDebts` -/

theorem debtorsOf_nil : debtorsOf [] = [] := rfl

theorem creditorsOf_nil : creditorsOf [] = [] := rfl

theorem simplifyDebts_eq_loop (b : List (Person × ℚ)) :
    simplifyDebts b =
      settleLoop ((sortDebtors (debtorsOf b)).length +
        (sortCreditors (creditorsOf b)).length)
        (sortDebtors (debtorsOf b)) (sortCreditors (creditorsOf b)) := rfl

/-- Keys of the two partition lists are disjoint when the balances
object has unique keys: one signed amount cannot satisfy both filters. -/
theorem partition_keys_disjoint (b : List (Person × ℚ))
    (hnd : (b.map Prod.fst).Nodup) :
    ((debtorsOf b).map Prod.fst).Disjoint ((creditorsOf b).map Prod.fst) := by
  intro p hp1 hp2
  obtain ⟨e1, he1, hp1'⟩ := List.mem_map.mp hp1
  obtain ⟨e2, he2, hp2'⟩ := List.mem_map.mp hp2
  obtain ⟨hb1, hlt1⟩ := mem_debtorsOf.mp he1
  obtain ⟨hb2, hlt2⟩ := mem_creditorsOf.mp he2
  obtain ⟨q1, a1⟩ := e1
  obtain ⟨q2, a2⟩ := e2
  simp only at hp1' hp2' hlt1 hlt2
  subst hp1'
  subst hp2'
  have := keys_unique hnd hb1 hb2
  subst this
  linarith

/-- The concatenated key list of the two sorted working lists has no
duplicates when the balances object has unique keys. -/
theorem partition_keys_nodup (b : List (Person × ℚ))
    (hnd : (b.map Prod.fst).Nodup) :
    ((sortDebtors (debtorsOf b)).map Prod.fst ++
      (sortCreditors (creditorsOf b)).map Prod.fst).Nodup := by
  have hd : ((debtorsOf b).map Prod.fst).Nodup :=
    ((List.filter_sublist b).map Prod.fst).nodup hnd
  have hc : ((creditorsOf b).map Prod.fst).Nodup :=
    ((List.filter_sublist b).map Prod.fst).nodup hnd
  have happ : ((debtorsOf b).map Prod.fst ++ (creditorsOf b).map Prod.fst).Nodup :=
    List.Nodup.append hd hc (partition_keys_disjoint b hnd)
  have hperm : ((debtorsOf b).map Prod.fst ++ (creditorsOf b).map Prod.fst).Perm
      ((sortDebtors (debtorsOf b)).map Prod.fst ++
        (sortCreditors (creditorsOf b)).map Prod.fst) :=
    List.Perm.append ((sortDebtors_perm _).map Prod.fst).symm
      ((sortCreditors_perm _).map Prod.fst).symm
  exact hperm.nodup happ

/-! ### Claim theorems -/

/-- C1 (amended): for an input whose keys are unique, whose amounts are
whole numbers of cents none of which is exactly +0.01 or −0.01, and
whose amounts sum to exactly zero, applying every settlement emitted by
`simplifyDebts` to a copy of the input balances leaves every
participant's balance exactly zero — in particular within epsilon of
zero. (Without the cent-alignment and boundary provisos the original
claim is false, see the counterexample.) -/
theorem simplifyDebts_settles_exact (b : List (Person × ℚ))
    (hnd : (b.map Prod.fst).Nodup)
    (hcent : ∀ e ∈ b, Cent e.2)
    (hbdry : ∀ e ∈ b, e.2 ≠ 1/100 ∧ e.2 ≠ -(1/100))
    (hsum : (b.map Prod.snd).sum = 0) :
    ∀ p ∈ b.map Prod.fst,
      applySettlements (simplifyDebts b) (balanceFn b) p = 0 := by
  have hexcl : ∀ e ∈ b, ¬ e.2 < -(1/100) → ¬ (1/100 : ℚ) < e.2 → e.2 = 0 := by
    intro e he h1 h2
    push_neg at h1 h2
    have hne := hbdry e he
    have hl : -(1/100 : ℚ) < e.2 := h1.lt_of_ne (fun hh => hne.2 hh.symm)
    have hr : e.2 < 1/100 := h2.lt_of_ne hne.1
    exact Cent.eq_zero_of_abs_lt (hcent e he) (abs_lt.mpr ⟨hl, hr⟩)
  have hds : ∀ e ∈ sortDebtors (debtorsOf b), e.2 ≤ -(1/100) ∧ Cent e.2 := by
    intro e he
    have he' : e ∈ debtorsOf b := (sortDebtors_perm _).mem_iff.mp he
    obtain ⟨hb, hlt⟩ := mem_debtorsOf.mp he'
    exact ⟨le_of_lt hlt, hcent e hb⟩
  have hcs : ∀ e ∈ sortCreditors (creditorsOf b), (1/100 : ℚ) ≤ e.2 ∧ Cent e.2 := by
    intro e he
    have he' : e ∈ creditorsOf b := (sortCreditors_perm _).mem_iff.mp he
    obtain ⟨hb, hlt⟩ := mem_creditorsOf.mp he'
    exact ⟨le_of_lt hlt, hcent e hb⟩
  have hnd' := partition_keys_nodup b hnd
  have hsum' : ((sortDebtors (debtorsOf b)).map Prod.snd).sum +
      ((sortCreditors (creditorsOf b)).map Prod.snd).sum = 0 := by
    have e1 : ((sortDebtors (debtorsOf b)).map Prod.snd).sum
        = ((debtorsOf b).map Prod.snd).sum :=
      ((sortDebtors_perm _).map Prod.snd).sum_eq
    have e2 : ((sortCreditors (creditorsOf b)).map Prod.snd).sum
        = ((creditorsOf b).map Prod.snd).sum :=
      ((sortCreditors_perm _).map Prod.snd).sum_eq
    rw [e1, e2, sum_split b hexcl, hsum]
  have hfd : ∀ e ∈ sortDebtors (debtorsOf b), balanceFn b e.1 = e.2 := by
    intro e he
    have he' : e ∈ debtorsOf b := (sortDebtors_perm _).mem_iff.mp he
    obtain ⟨hb, _⟩ := mem_debtorsOf.mp he'
    obtain ⟨q, a⟩ := e
    exact balanceFn_eq hnd hb
  have hfc : ∀ e ∈ sortCreditors (creditorsOf b), balanceFn b e.1 = e.2 := by
    intro e he
    have he' : e ∈ creditorsOf b := (sortCreditors_perm _).mem_iff.mp he
    obtain ⟨hb, _⟩ := mem_creditorsOf.mp he'
    obtain ⟨q, a⟩ := e
    exact balanceFn_eq hnd hb
  have key := settleLoop_settles
    ((sortDebtors (debtorsOf b)).length + (sortCreditors (creditorsOf b)).length)
    (sortDebtors (debtorsOf b)) (sortCreditors (creditorsOf b)) (balanceFn b)
    hds hcs hnd' hsum' (le_refl _) hfd hfc
  intro p hp
  rw [simplifyDebts_eq_loop, key p]
  by_cases hmem : p ∈ (sortDebtors (debtorsOf b)).map Prod.fst ∨
      p ∈ (sortCreditors (creditorsOf b)).map Prod.fst
  · rw [if_pos hmem]
  · rw [if_neg hmem]
    push_neg at hmem
    obtain ⟨e, he, rfl⟩ := List.mem_map.mp hp
    have h1 : ¬ e.2 < -(1/100) := by
      intro h
      exact hmem.1 (List.mem_map.mpr
        ⟨e, (sortDebtors_perm _).mem_iff.mpr (mem_debtorsOf.mpr ⟨he, h⟩), rfl⟩)
    have h2 : ¬ (1/100 : ℚ) < e.2 := by
      intro h
      exact hmem.2 (List.mem_map.mpr
        ⟨e, (sortCreditors_perm _).mem_iff.mpr (mem_creditorsOf.mpr ⟨he, h⟩), rfl⟩)
    have h0 := hexcl e he h1 h2
    obtain ⟨q, a⟩ := e
    simp only at h0
    rw [balanceFn_eq hnd he, h0]

/-- C2 (amended): the partition uses strict comparisons: an entry lands
in the debtors list exactly when its amount is `< −0.01` and in the
creditors list exactly when its amount is `> +0.01`; amounts in the
closed interval `[−0.01, +0.01]` — including exactly ±0.01 — are
excluded from both lists. -/
theorem partition_strict (b : List (Person × ℚ)) (e : Person × ℚ) :
    (e ∈ debtorsOf b ↔ e ∈ b ∧ e.2 < -(1/100)) ∧
    (e ∈ creditorsOf b ↔ e ∈ b ∧ (1/100 : ℚ) < e.2) :=
  ⟨mem_debtorsOf, mem_creditorsOf⟩

/-- C2 counterexample: a participant whose balance is exactly −0.01 is
not placed into the debtors list, and one at exactly +0.01 is not placed
into the creditors list, contradicting the claimed `≤/≥` comparisons. -/
theorem partition_boundary_cex :
    ("A", -(1/100 : ℚ)) ∉ debtorsOf [("A", -(1/100 : ℚ))] ∧
    ("A", (1/100 : ℚ)) ∉ creditorsOf [("A", (1/100 : ℚ))] := by
  constructor
  · intro h
    have := (mem_debtorsOf.mp h).2
    norm_num at this
  · intro h
    have := (mem_creditorsOf.mp h).2
    norm_num at this

/-- C3: every settlement emitted by `simplifyDebts` has a strictly
positive amount (it is in fact at least one cent, rounding included). -/
theorem simplifyDebts_amount_pos (b : List (Person × ℚ)) (s : Settlement)
    (hs : s ∈ simplifyDebts b) : 0 < s.amount := by
  rw [simplifyDebts_eq_loop] at hs
  have h := (settleLoop_main _ _ _ (sorted_inv b).1 (sorted_inv b).2).2 s hs
  linarith [h.1]

/-- C4: when the partition produces at least one debtor or creditor, the
number of settlements is at most `debtorCount + creditorCount − 1`. -/
theorem simplifyDebts_count_le (b : List (Person × ℚ))
    (h : 1 ≤ (debtorsOf b).length + (creditorsOf b).length) :
    (simplifyDebts b).length ≤
      (debtorsOf b).length + (creditorsOf b).length - 1 := by
  have hmain := (settleLoop_main
    ((sortDebtors (debtorsOf b)).length + (sortCreditors (creditorsOf b)).length)
    _ _ (sorted_inv b).1 (sorted_inv b).2).1
  have e1 : (sortDebtors (debtorsOf b)).length = (debtorsOf b).length :=
    (sortDebtors_perm _).length_eq
  have e2 : (sortCreditors (creditorsOf b)).length = (creditorsOf b).length :=
    (sortCreditors_perm _).length_eq
  rw [simplifyDebts_eq_loop]
  omega

/-- C5: the matching loop terminates within
`debtorCount + creditorCount` iterations: any fuel bound at least that
large yields the same run, and the number of iterations (one settlement
is emitted per iteration) is at most `debtorCount + creditorCount`. -/
theorem simplifyDebts_terminates (b : List (Person × ℚ)) (fuel : Nat)
    (h : (debtorsOf b).length + (creditorsOf b).length ≤ fuel) :
    settleLoop fuel (sortDebtors (debtorsOf b)) (sortCreditors (creditorsOf b))
      = simplifyDebts b ∧
    (simplifyDebts b).length ≤
      (debtorsOf b).length + (creditorsOf b).length := by
  have e1 : (sortDebtors (debtorsOf b)).length = (debtorsOf b).length :=
    (sortDebtors_perm _).length_eq
  have e2 : (sortCreditors (creditorsOf b)).length = (creditorsOf b).length :=
    (sortCreditors_perm _).length_eq
  constructor
  · rw [simplifyDebts_eq_loop]
    exact settleLoop_fuel_eq fuel _ _ (sorted_inv b).1 (sorted_inv b).2
      (by rw [e1, e2]; exact h)
  · have hmain := (settleLoop_main
      ((sortDebtors (debtorsOf b)).length + (sortCreditors (creditorsOf b)).length)
      _ _ (sorted_inv b).1 (sorted_inv b).2).1
    rw [simplifyDebts_eq_loop]
    omega

/-- C6: an empty balances object, or one in which every amount has
magnitude at most epsilon, yields an empty settlement sequence. -/
theorem simplifyDebts_noop (b : List (Person × ℚ))
    (h : b = [] ∨ ∀ e ∈ b, |e.2| ≤ 1/100) :
    simplifyDebts b = [] := by
  have hd : debtorsOf b = [] := by
    rcases h with rfl | h
    · rfl
    · rw [List.eq_nil_iff_forall_not_mem]
      intro e he
      obtain ⟨hb, hlt⟩ := mem_debtorsOf.mp he
      have := abs_le.mp (h e hb)
      linarith [this.1]
  have hc : creditorsOf b = [] := by
    rcases h with rfl | h
    · rfl
    · rw [List.eq_nil_iff_forall_not_mem]
      intro e he
      obtain ⟨hb, hlt⟩ := mem_creditorsOf.mp he
      have := abs_le.mp (h e hb)
      linarith [this.2]
  rw [simplifyDebts_eq_loop, hd, hc]
  rfl

/-- C8: no emitted settlement pays a participant to themselves: `from`
is always a debtor key and `to` a creditor key, and under unique input
keys one amount cannot be on both sides of the partition. -/
theorem simplifyDebts_no_self_pay (b : List (Person × ℚ))
    (hnd : (b.map Prod.fst).Nodup) (s : Settlement)
    (hs : s ∈ simplifyDebts b) : s.«from» ≠ s.«to» := by
  rw [simplifyDebts_eq_loop] at hs
  obtain ⟨_, hf, ht⟩ :=
    (settleLoop_main _ _ _ (sorted_inv b).1 (sorted_inv b).2).2 s hs
  intro he
  have hf' : s.«from» ∈ (debtorsOf b).map Prod.fst := by
    obtain ⟨e, he', hfe⟩ := List.mem_map.mp hf
    exact List.mem_map.mpr ⟨e, (sortDebtors_perm _).mem_iff.mp he', hfe⟩
  have ht' : s.«from» ∈ (creditorsOf b).map Prod.fst := by
    rw [he]
    obtain ⟨e, he', hte⟩ := List.mem_map.mp ht
    exact List.mem_map.mpr ⟨e, (sortCreditors_perm _).mem_iff.mp he', hte⟩
  exact partition_keys_disjoint b hnd hf' ht'

/-- C9: `simplifyDebts` is total: on every input the divergence-observing
run completes (returns `some`), i.e. the function returns a settlement
sequence to its caller rather than failing or looping. -/
theorem simplifyDebts_total (b : List (Person × ℚ)) :
    simplifyDebtsOpt b = some (simplifyDebts b) := by
  simp only [simplifyDebtsOpt, simplifyDebts]
  exact settleLoopOpt_eq _ _ _ (sorted_inv b).1 (sorted_inv b).2 (le_refl _)

/-- C10: the whole-state run never writes the caller's `balances`: the
loop mutates only the freshly constructed working lists, and the
settlements it accumulates are exactly `simplifyDebts balances`. -/
theorem simplifyDebts_preserves_input (b : List (Person × ℚ)) :
    (runSimplify b).balances = b ∧
    (runSimplify b).settlements = simplifyDebts b := by
  constructor
  · simp only [runSimplify]
    exact runLoop_balances _ _ _ _ _
  · simp only [runSimplify]
    rw [runLoop_settlements, simplifyDebts_eq_loop]
    simp

/-! ### Concrete runs -/

/-- Spec scenario 1: `{A: -30, B: 10, C: 20}`. -/
def exScenario1 : List (Person × ℚ) := [("A", -30), ("B", 10), ("C", 20)]

/-- Zero-sum input with two balances at exactly +0.01:
`{A: 0.01, B: 0.01, C: -0.02}`. -/
def exBoundary : List (Person × ℚ) := [("A", 1/100), ("B", 1/100), ("C", -(1/50))]

theorem exScenario1_debtors : debtorsOf exScenario1 = [("A", -30)] := by
  norm_num [exScenario1, debtorsOf_cons, debtorsOf_nil]

theorem exScenario1_creditors : creditorsOf exScenario1 = [("B", 10), ("C", 20)] := by
  norm_num [exScenario1, creditorsOf_cons, creditorsOf_nil]

theorem exScenario1_eval :
    simplifyDebts exScenario1 =
      [⟨"A", "C", 20, "USD"⟩, ⟨"A", "B", 10, "USD"⟩] := by
  have habs30 : |(-30 : ℚ)| = 30 := by
    rw [abs_of_nonpos (by norm_num)]
    norm_num
  have habs10 : |(-10 : ℚ)| = 10 := by
    rw [abs_of_nonpos (by norm_num)]
    norm_num
  have hsd : sortDebtors [("A", (-30 : ℚ))] = [("A", -30)] := by
    simp [sortDebtors, insertDebtor]
  have hsc : sortCreditors [("B", (10 : ℚ)), ("C", 20)] = [("C", 20), ("B", 10)] := by
    norm_num [sortCreditors, insertCreditor]
  have hr1 : round2 (min |(-30 : ℚ)| 20) = 20 := by
    rw [habs30, min_eq_right (by norm_num : (20 : ℚ) ≤ 30)]
    norm_num [round2]
  have hr2 : round2 (min |(-10 : ℚ)| 10) = 10 := by
    rw [habs10, min_eq_right (le_refl _)]
    norm_num [round2]
  rw [simplifyDebts_eq_loop, exScenario1_debtors, exScenario1_creditors, hsd, hsc]
  norm_num
  rw [show (3 : ℕ) = 2 + 1 from rfl, settleLoop_cons, hr1]
  rw [show (-30 : ℚ) + 20 = -10 by norm_num, show (20 : ℚ) - 20 = 0 by norm_num]
  rw [if_neg (by rw [habs10]; norm_num), if_pos (by norm_num : (0 : ℚ) < 1/100)]
  rw [show (2 : ℕ) = 1 + 1 from rfl, settleLoop_cons, hr2]
  rw [show (-10 : ℚ) + 10 = 0 by norm_num, show (10 : ℚ) - 10 = 0 by norm_num]
  rw [if_pos (by rw [abs_zero]; norm_num : |(0 : ℚ)| < 1/100),
    if_pos (by norm_num : (0 : ℚ) < 1/100)]
  rw [settleLoop_nil_left]

/-- C7: on the input `{A: -30, B: 10, C: 20}` the function returns
exactly `A→C 20.00` followed by `A→B 10.00`: the largest creditor C is
matched first. -/
theorem simplifyDebts_scenario1 :
    simplifyDebts exScenario1 =
      [⟨"A", "C", 20, "USD"⟩, ⟨"A", "B", 10, "USD"⟩] :=
  exScenario1_eval

theorem exBoundary_eval : simplifyDebts exBoundary = [] := by
  have hd : debtorsOf exBoundary = [("C", -(1/50))] := by
    norm_num [exBoundary, debtorsOf_cons, debtorsOf_nil]
  have hc : creditorsOf exBoundary = [] := by
    norm_num [exBoundary, creditorsOf_cons, creditorsOf_nil]
  rw [simplifyDebts_eq_loop, hd, hc]
  rw [show sortDebtors [("C", -(1/50 : ℚ))] = [("C", -(1/50))] from by
    simp [sortDebtors, insertDebtor]]
  rw [show sortCreditors ([] : List (Person × ℚ)) = [] from rfl]
  rw [settleLoop_nil_right]

/-- C1 counterexample: the input `{A: 0.01, B: 0.01, C: -0.02}` sums to
exactly zero, yet `simplifyDebts` emits no settlement (A and B sit at
exactly +0.01 and are excluded by the strict partition, so the creditors
list is empty), leaving C's simulated balance at −0.02, which is not
within epsilon of zero. -/
theorem simplifyDebts_settles_cex :
    (exBoundary.map Prod.snd).sum = 0 ∧
    simplifyDebts exBoundary = [] ∧
    ¬ |applySettlements (simplifyDebts exBoundary) (balanceFn exBoundary) "C"|
        ≤ 1/100 := by
  refine ⟨by norm_num [exBoundary], exBoundary_eval, ?_⟩
  rw [exBoundary_eval]
  show ¬ |balanceFn exBoundary "C"| ≤ 1/100
  rw [show balanceFn exBoundary "C" = -(1/50) from rfl]
  rw [abs_of_nonpos (by norm_num)]
  norm_num

/-! ### Witnesses -/

/-- Witness for C1 (amended) at scenario 1: participant A ends at
exactly zero. -/
theorem simplifyDebts_settles_exact_witness :
    applySettlements (simplifyDebts exScenario1) (balanceFn exScenario1) "A" = 0 :=
  simplifyDebts_settles_exact exScenario1
    (by decide)
    (by
      intro e he
      simp only [exScenario1, List.mem_cons, List.not_mem_nil, or_false] at he
      rcases he with rfl | rfl | rfl
      · exact ⟨-3000, by norm_num⟩
      · exact ⟨1000, by norm_num⟩
      · exact ⟨2000, by norm_num⟩)
    (by
      intro e he
      simp only [exScenario1, List.mem_cons, List.not_mem_nil, or_false] at he
      rcases he with rfl | rfl | rfl <;> constructor <;> norm_num)
    (by norm_num [exScenario1])
    "A" (by simp [exScenario1])

/-- Witness for C3 at scenario 1: the first emitted settlement has a
positive amount. -/
theorem simplifyDebts_amount_pos_witness :
    0 < (⟨"A", "C", 20, "USD"⟩ : Settlement).amount :=
  simplifyDebts_amount_pos exScenario1 ⟨"A", "C", 20, "USD"⟩
    (by rw [exScenario1_eval]; exact List.mem_cons_self _ _)

/-- Witness for C4 at scenario 1: two settlements, bound `1 + 2 − 1`. -/
theorem simplifyDebts_count_le_witness :
    (simplifyDebts exScenario1).length ≤
      (debtorsOf exScenario1).length + (creditorsOf exScenario1).length - 1 :=
  simplifyDebts_count_le exScenario1
    (by rw [exScenario1_debtors, exScenario1_creditors]; simp)

/-- Witness for C5 at scenario 1 with surplus fuel 5. -/
theorem simplifyDebts_terminates_witness :
    settleLoop 5 (sortDebtors (debtorsOf exScenario1))
        (sortCreditors (creditorsOf exScenario1)) = simplifyDebts exScenario1 ∧
    (simplifyDebts exScenario1).length ≤
      (debtorsOf exScenario1).length + (creditorsOf exScenario1).length :=
  simplifyDebts_terminates exScenario1 5
    (by rw [exScenario1_debtors, exScenario1_creditors]; simp)

/-- Witness for C6: a single balance of 0.005 yields no settlements. -/
theorem simplifyDebts_noop_witness :
    simplifyDebts [("A", (1/200 : ℚ))] = [] :=
  simplifyDebts_noop [("A", (1/200 : ℚ))]
    (Or.inr (by
      intro e he
      simp only [List.mem_cons, List.not_mem_nil, or_false] at he
      rw [he]
      show |(1/200 : ℚ)| ≤ 1/100
      rw [abs_of_nonneg (by norm_num)]
      norm_num))

/-- Witness for C8 at scenario 1: the first settlement pays A to C,
two distinct participants. -/
theorem simplifyDebts_no_self_pay_witness :
    (⟨"A", "C", 20, "USD"⟩ : Settlement).«from» ≠
      (⟨"A", "C", 20, "USD"⟩ : Settlement).«to» :=
  simplifyDebts_no_self_pay exScenario1 (by decide) ⟨"A", "C", 20, "USD"⟩
    (by rw [exScenario1_eval]; exact List.mem_cons_self _ _)
